import Mathlib

/-!
# Verification of the `programming-bitcoin-rs` elliptic-curve core

A shallow embedding, in Lean 4, of the prime-field arithmetic
(`src/ecc/finite_field.rs`), the elliptic-curve point group over a finite
field (`src/ecc/elliptic_curve_finite_field.rs`), and the secp256k1 layer
with ECDSA and SEC serialization (`src/ecc/secp256k1.rs`,
`src/ecc/secp256k1/sec_format.rs`).

Conventions of the embedding:
* Rust `BigInt` becomes `Int`; byte strings become `List Nat`.
* Rust's truncated remainder `%` on `BigInt` is `Int.tmod`; `mod_floor` is
  `Int.fmod`; `BigInt::div` is `Int.tdiv`.
* `BigInt::modpow` panics when the exponent is negative, so it is embedded
  as `intModPow : Int → Int → Int → Option Int` returning `none` exactly on
  a negative exponent; the non-negative case is the total `modpowNonneg`.
* Fallible Rust operations (`Result`) and panicking operations (`unwrap`,
  `copy_from_slice` length mismatches) are embedded with `Option`/`Except`:
  `none` (or a dedicated error constructor) marks the aborting outcome.
-/

/-- One step of square-and-multiply, processing the exponent from its least
significant bit; `fuel` bounds the recursion and is always sufficient when
`e ≤ fuel`. Computes `acc * b ^ e % m` for `m > 0`. -/
def natPowModAux (m : Nat) : Nat → Nat → Nat → Nat → Nat
  | 0, _, _, acc => acc
  | fuel + 1, b, e, acc =>
    if e = 0 then acc
    else natPowModAux m fuel (b * b % m) (e / 2) (if e % 2 = 1 then acc * b % m else acc)

/-- `b ^ e mod m` by binary exponentiation, reducing at every step so that the
kernel can evaluate it on 256-bit operands. -/
def natPowMod (b e m : Nat) : Nat :=
  natPowModAux m (e + 1) (b % m) e (1 % m)

/-- `BigInt::modpow` for a non-negative exponent: the result follows
`mod_floor` semantics, i.e. it lies in `[0, m)` for `m > 0` even when the
base is negative. -/
def modpowNonneg (b e m : Int) : Int :=
  (natPowMod (b.emod m).toNat e.toNat m.toNat : Nat)

/-- `BigInt::modpow`: panics (here: `none`) when the exponent is negative. -/
def intModPow (b e m : Int) : Option Int :=
  if e < 0 then none else some (modpowNonneg b e m)

theorem natPowModAux_correct (m : Nat) :
    ∀ fuel e b acc, e ≤ fuel → acc < m →
      natPowModAux m fuel b e acc = acc * b ^ e % m := by
  intro fuel
  induction fuel with
  | zero =>
    intro e b acc he hacc
    interval_cases e
    simp [natPowModAux, Nat.mod_eq_of_lt hacc]
  | succ n ih =>
    intro e b acc he hacc
    have hm : 0 < m := Nat.lt_of_le_of_lt (Nat.zero_le acc) hacc
    rw [natPowModAux]
    by_cases he0 : e = 0
    · simp [he0, Nat.mod_eq_of_lt hacc]
    · rw [if_neg he0]
      have hdiv : e / 2 ≤ n := by
        have := Nat.div_le_self e 2
        omega
      rw [ih (e / 2) (b * b % m) _ hdiv
        (by split <;> [exact Nat.mod_lt _ hm; exact hacc])]
      have hsplit : e = 2 * (e / 2) + e % 2 := by omega
      have hcong : (if e % 2 = 1 then acc * b % m else acc) * (b * b % m) ^ (e / 2)
          ≡ acc * b ^ e [MOD m] := by
        have hb2 : (b * b % m) ^ (e / 2) ≡ (b * b) ^ (e / 2) [MOD m] :=
          (Nat.mod_modEq (b * b) m).pow _
        by_cases hpar : e % 2 = 1
        · rw [if_pos hpar]
          calc acc * b % m * (b * b % m) ^ (e / 2)
              ≡ acc * b * (b * b) ^ (e / 2) [MOD m] :=
                (Nat.mod_modEq (acc * b) m).mul hb2
            _ = acc * b ^ e := by
                conv_rhs => rw [hsplit, hpar]
                rw [pow_add, pow_mul, pow_one]
                ring
        · have hpar0 : e % 2 = 0 := by omega
          rw [if_neg hpar]
          calc acc * (b * b % m) ^ (e / 2)
              ≡ acc * (b * b) ^ (e / 2) [MOD m] := Nat.ModEq.mul_left acc hb2
            _ = acc * b ^ e := by
                conv_rhs => rw [hsplit, hpar0]
                rw [Nat.add_zero, pow_mul, pow_two]
      exact hcong

theorem natPowMod_correct (b e m : Nat) (hm : 0 < m) :
    natPowMod b e m = b ^ e % m := by
  rw [natPowMod, natPowModAux_correct m (e + 1) e (b % m) (1 % m) (Nat.le_succ e)
    (Nat.mod_lt _ hm)]
  have : (1 % m) * (b % m) ^ e ≡ 1 * b ^ e [MOD m] :=
    (Nat.mod_modEq 1 m).mul ((Nat.mod_modEq b m).pow _)
  rw [show (1 : Nat) * b ^ e = b ^ e from one_mul _] at this
  exact this

/-- Big-endian byte emission, most significant byte last into the
accumulator; `fuel` always suffices when `n ≤ fuel`. -/
def natBytesBEAux : Nat → Nat → List Nat → List Nat
  | 0, _, acc => acc
  | fuel + 1, n, acc =>
    if n = 0 then acc else natBytesBEAux fuel (n / 256) (n % 256 :: acc)

/-- `BigInt::to_bytes_be().1`: the minimal big-endian magnitude bytes, with
`0` encoded as the single byte `0`. -/
def natBytesBE (n : Nat) : List Nat :=
  if n = 0 then [0] else natBytesBEAux n n []

/-- `BigInt::from_bytes_be(Sign::Plus, bytes)`. -/
def bytesToNat (bs : List Nat) : Nat :=
  bs.foldl (fun acc b => acc * 256 + b) 0

theorem natBytesBEAux_length_mono :
    ∀ fuel n acc, acc.length ≤ (natBytesBEAux fuel n acc).length := by
  intro fuel
  induction fuel with
  | zero => intro n acc; simp [natBytesBEAux]
  | succ f ih =>
    intro n acc
    rw [natBytesBEAux]
    split
    · exact Nat.le_refl _
    · exact Nat.le_trans (by simp) (ih (n / 256) (n % 256 :: acc))

theorem natBytesBEAux_length_le :
    ∀ k fuel n acc, n < 256 ^ k →
      (natBytesBEAux fuel n acc).length ≤ k + acc.length := by
  intro k
  induction k with
  | zero =>
    intro fuel n acc hn
    have : n = 0 := by omega
    subst this
    cases fuel <;> simp [natBytesBEAux]
  | succ k ih =>
    intro fuel n acc hn
    cases fuel with
    | zero => simp [natBytesBEAux]
    | succ f =>
      rw [natBytesBEAux]
      split
      · omega
      · have hlt : n / 256 < 256 ^ k := by
          have h2 : n < 256 * 256 ^ k := by rw [← pow_succ']; exact hn
          exact Nat.div_lt_of_lt_mul h2
        have := ih f (n / 256) (n % 256 :: acc) hlt
        simp only [List.length_cons] at this
        omega

theorem natBytesBEAux_length_ge :
    ∀ k fuel n acc, 256 ^ k ≤ n → n ≤ fuel →
      k + 1 + acc.length ≤ (natBytesBEAux fuel n acc).length := by
  intro k
  induction k with
  | zero =>
    intro fuel n acc hn hfuel
    simp only [pow_zero] at hn
    cases fuel with
    | zero => omega
    | succ f =>
      rw [natBytesBEAux, if_neg (by omega)]
      have := natBytesBEAux_length_mono f (n / 256) (n % 256 :: acc)
      simp only [List.length_cons] at this
      omega
  | succ k ih =>
    intro fuel n acc hn hfuel
    have hpos : 0 < 256 ^ (k + 1) := pow_pos (by norm_num) _
    cases fuel with
    | zero => omega
    | succ f =>
      rw [natBytesBEAux, if_neg (by omega)]
      have hdiv : 256 ^ k ≤ n / 256 := by
        rw [Nat.le_div_iff_mul_le (by norm_num)]
        calc 256 ^ k * 256 = 256 ^ (k + 1) := by rw [pow_succ]
          _ ≤ n := hn
      have h256 : 256 ≤ n := by
        calc (256 : Nat) = 256 ^ 1 := (pow_one _).symm
          _ ≤ 256 ^ (k + 1) := Nat.pow_le_pow_right (by norm_num) (by omega)
          _ ≤ n := hn
      have hfuel' : n / 256 ≤ f := by
        have : n / 256 < n := Nat.div_lt_self (by omega) (by norm_num)
        omega
      have := ih f (n / 256) (n % 256 :: acc) hdiv hfuel'
      simp only [List.length_cons] at this
      omega

/-- For `0 < n < 256 ^ 32`, the byte length of `natBytesBE n` is at most 32,
and it is exactly 32 iff `256 ^ 31 ≤ n`. -/
theorem natBytesBE_length_lt_32 (n : Nat) (h : n < 256 ^ 31) :
    (natBytesBE n).length < 32 := by
  rw [natBytesBE]
  split
  · norm_num
  · have := natBytesBEAux_length_le 31 n n [] h
    simp only [List.length_nil] at this
    omega

theorem natBytesBE_length_eq_32 (n : Nat) (h1 : 256 ^ 31 ≤ n) (h2 : n < 256 ^ 32) :
    (natBytesBE n).length = 32 := by
  have hpos : 0 < 256 ^ 31 := pow_pos (by norm_num) _
  rw [natBytesBE, if_neg (by omega)]
  have hle := natBytesBEAux_length_le 32 n n [] h2
  have hge := natBytesBEAux_length_ge 31 n n [] h1 (Nat.le_refl n)
  simp only [List.length_nil] at hle hge
  omega

/-! ## `src/ecc/finite_field.rs` -/

/-- `FieldElement { num: BigInt, prime: BigInt }`. -/
structure FieldElement where
  num : Int
  prime : Int
deriving DecidableEq

namespace FieldElement

/-- `FieldElement::new(num, prime)`: first reduces `num % prime` with Rust's
truncated remainder (`Int.tmod`), then errs iff `prime < num` holds for the
*reduced* value. -/
def new (num prime : Int) : Option FieldElement :=
  if prime < num.tmod prime then none else some ⟨num.tmod prime, prime⟩

/-- `FieldElement::pow(rhs)`: a negative exponent is rewritten once as
`-1 + prime + exponent`; `modpow` then panics (`none`) if it is still
negative. -/
def pow (a : FieldElement) (e : Int) : Option FieldElement :=
  let e' := if e < 0 then -1 + a.prime + e else e
  (intModPow a.num e' a.prime).map fun n => ⟨n, a.prime⟩

/-- `impl Add<&FieldElement> for &FieldElement`. -/
def add (a b : FieldElement) : Option FieldElement :=
  if a.prime ≠ b.prime then none
  else some ⟨(a.num + b.num).fmod a.prime, a.prime⟩

/-- `impl Sub<&FieldElement> for &FieldElement`. -/
def sub (a b : FieldElement) : Option FieldElement :=
  if a.prime ≠ b.prime then none
  else if b.num ≤ a.num then some ⟨a.num - b.num, a.prime⟩
  else some ⟨b.prime - (b.num - a.num), b.prime⟩

/-- `impl Mul<&FieldElement> for &FieldElement`. -/
def mul (a b : FieldElement) : Option FieldElement :=
  if a.prime ≠ b.prime then none
  else some ⟨(a.num * b.num).fmod a.prime, a.prime⟩

/-- `impl Div<&FieldElement> for &FieldElement`:
`(self.num * rhs.num.modpow(self.prime - 2, rhs.prime)) % rhs.prime`. -/
def div (a b : FieldElement) : Option FieldElement :=
  if a.prime ≠ b.prime then none
  else (intModPow b.num (a.prime - 2) b.prime).map fun inv =>
    ⟨(a.num * inv).tmod b.prime, a.prime⟩

end FieldElement

-- Sanity checks against the unit tests of `finite_field.rs` (the passing ones).
example : FieldElement.add ⟨2, 31⟩ ⟨15, 31⟩ = some ⟨17, 31⟩ := by decide
example : FieldElement.add ⟨17, 31⟩ ⟨21, 31⟩ = some ⟨7, 31⟩ := by decide
example : FieldElement.sub ⟨29, 31⟩ ⟨4, 31⟩ = some ⟨25, 31⟩ := by decide
example : FieldElement.sub ⟨15, 31⟩ ⟨30, 31⟩ = some ⟨16, 31⟩ := by decide
example : FieldElement.mul ⟨24, 31⟩ ⟨19, 31⟩ = some ⟨22, 31⟩ := by decide
example : FieldElement.pow ⟨17, 31⟩ 3 = some ⟨15, 31⟩ := by decide
example : FieldElement.div ⟨3, 31⟩ ⟨24, 31⟩ = some ⟨4, 31⟩ := by decide
example : FieldElement.pow ⟨17, 31⟩ (-3) = some ⟨29, 31⟩ := by decide

/-! ## `src/ecc/elliptic_curve_finite_field.rs` -/

/-- `CurveOverFiniteField { a, b }`. -/
structure CurveOverFiniteField where
  a : FieldElement
  b : FieldElement
deriving DecidableEq

/-- `Coordinate { x, y }`. -/
structure Coordinate where
  x : FieldElement
  y : FieldElement
deriving DecidableEq

/-- `Point { coordinate, curve }`. -/
structure Point where
  coordinate : Option Coordinate
  curve : CurveOverFiniteField
deriving DecidableEq

/-- `Point::new(coordinate, curve)`: validates `y² = x·a + x³ + b` for a
present coordinate; `none` covers both the `Invalid coordinate` error and any
panic inside the field arithmetic of the check. -/
def Point.new (coordinate : Option Coordinate) (curve : CurveOverFiniteField) :
    Option Point :=
  match coordinate with
  | none => some ⟨none, curve⟩
  | some ⟨x, y⟩ => do
    let lhs ← FieldElement.mul y y
    let t1 ← FieldElement.mul x curve.a
    let x3 ← FieldElement.pow x 3
    let t2 ← FieldElement.add t1 x3
    let rhs ← FieldElement.add t2 curve.b
    if lhs ≠ rhs then none else some ⟨some ⟨x, y⟩, curve⟩

/-- The failure modes of `impl Add<&Point> for &Point`: the explicit
`CurveMismatch` and `Invalid prime numbers` errors, and `panicked` for any
`unwrap()` on a failing field operation or point validation. -/
inductive AddErr where
  | curveMismatch
  | invalidPrimes
  | panicked
deriving DecidableEq

instance {ε α : Type} [DecidableEq ε] [DecidableEq α] : DecidableEq (Except ε α) := fun
  | .ok a, .ok b =>
    if h : a = b then .isTrue (by rw [h]) else .isFalse (by simp [h])
  | .ok _, .error _ => .isFalse (by simp)
  | .error _, .ok _ => .isFalse (by simp)
  | .error a, .error b =>
    if h : a = b then .isTrue (by rw [h]) else .isFalse (by simp [h])

/-- Lifts the panic channel of the field arithmetic into `Except AddErr`. -/
def liftPanic : Option Point → Except AddErr Point
  | none => .error .panicked
  | some p => .ok p

/-- `impl Add<&Point> for &Point`, with the source's branches in their exact
order: curve equality first, then the identity cases, the prime-consistency
guard, the vertical-line case, the `y = 0` doubling case, doubling, and
general addition. -/
def Point.add (p q : Point) : Except AddErr Point :=
  if p.curve ≠ q.curve then .error .curveMismatch
  else
    match p.coordinate, q.coordinate with
    | none, none => .ok ⟨none, p.curve⟩
    | none, some _ => .ok q
    | some _, none => .ok p
    | some ⟨x1, y1⟩, some ⟨x2, y2⟩ =>
      if x1.prime ≠ y1.prime ∨ y1.prime ≠ x2.prime ∨ x2.prime ≠ y2.prime then
        .error .invalidPrimes
      else if x1 = x2 ∧ y1 ≠ y2 then .ok ⟨none, p.curve⟩
      else if x1 = x2 ∧ y1 = y2 ∧ y1.num = 0 then .ok ⟨none, p.curve⟩
      else if x1 = x2 ∧ y1 = y2 then
        liftPanic do
          let two ← FieldElement.new 2 x1.prime
          let three ← FieldElement.new 3 x1.prime
          let s1 ← FieldElement.mul three x1
          let s2 ← FieldElement.mul s1 x1
          let s3 ← FieldElement.add s2 p.curve.a
          let s4 ← FieldElement.div s3 two
          let s ← FieldElement.div s4 y1
          let sq ← FieldElement.mul s s
          let tx ← FieldElement.mul two x1
          let x ← FieldElement.sub sq tx
          let d ← FieldElement.sub x1 x
          let m ← FieldElement.mul d s
          let y ← FieldElement.sub m y1
          Point.new (some ⟨x, y⟩) p.curve
      else
        liftPanic do
          let dy ← FieldElement.sub y2 y1
          let dx ← FieldElement.sub x2 x1
          let s ← FieldElement.div dy dx
          let sq ← FieldElement.mul s s
          let t ← FieldElement.sub sq x1
          let x ← FieldElement.sub t x2
          let d ← FieldElement.sub x1 x
          let m ← FieldElement.mul d s
          let y ← FieldElement.sub m y1
          Point.new (some ⟨x, y⟩) p.curve

/-- The body of the `while rhs > 0` loop of `impl Mul<&BigInt> for &Point`;
`none` propagates a panicking `unwrap()` on an addition. `fuel` always
suffices when `n ≤ fuel` since `n` is halved each pass. -/
def Point.mulLoop : Nat → Point → Point → Nat → Option Point
  | _, res, _, 0 => some res
  | 0, _, _, _ + 1 => none
  | fuel + 1, res, cur, n + 1 => do
    let res' ← if (n + 1) % 2 = 1 then (Point.add res cur).toOption else some res
    let cur' ← (Point.add cur cur).toOption
    Point.mulLoop fuel res' cur' ((n + 1) / 2)

/-- `impl Mul<&BigInt> for &Point`: `rhs == 0` short-circuits to the
identity; otherwise least-significant-bit-first double-and-add (a negative
`rhs` never enters the loop and also yields the identity). -/
def Point.mul (p : Point) (rhs : Int) : Option Point :=
  if rhs = 0 then some ⟨none, p.curve⟩
  else Point.mulLoop rhs.toNat ⟨none, p.curve⟩ p rhs.toNat

/-- The specification's `k`-fold iterated group addition of a point
(`P added to itself k times`), used as the reference for the
double-and-add refinement claim. Modelled from the spec, not the source. -/
def Point.iterAdd (p : Point) : Nat → Option Point
  | 0 => some ⟨none, p.curve⟩
  | k + 1 => do
    let q ← Point.iterAdd p k
    (Point.add q p).toOption

-- Sanity checks against the unit tests of `elliptic_curve_finite_field.rs`.
section PointTests

def curve223 : CurveOverFiniteField := ⟨⟨0, 223⟩, ⟨7, 223⟩⟩

example : (Point.new (some ⟨⟨192, 223⟩, ⟨105, 223⟩⟩) curve223).isSome = true := by decide
example : (Point.new (some ⟨⟨200, 223⟩, ⟨119, 223⟩⟩) curve223).isSome = false := by decide
example :
    Point.add ⟨some ⟨⟨192, 223⟩, ⟨105, 223⟩⟩, curve223⟩ ⟨some ⟨⟨17, 223⟩, ⟨56, 223⟩⟩, curve223⟩
      = .ok ⟨some ⟨⟨170, 223⟩, ⟨142, 223⟩⟩, curve223⟩ := by decide
example :
    Point.add ⟨some ⟨⟨192, 223⟩, ⟨105, 223⟩⟩, curve223⟩ ⟨some ⟨⟨192, 223⟩, ⟨105, 223⟩⟩, curve223⟩
      = .ok ⟨some ⟨⟨49, 223⟩, ⟨71, 223⟩⟩, curve223⟩ := by decide
example :
    Point.mul ⟨some ⟨⟨47, 223⟩, ⟨71, 223⟩⟩, curve223⟩ 8
      = some ⟨some ⟨⟨116, 223⟩, ⟨55, 223⟩⟩, curve223⟩ := by decide
example :
    Point.mul ⟨some ⟨⟨47, 223⟩, ⟨71, 223⟩⟩, curve223⟩ 21
      = some ⟨none, curve223⟩ := by decide

end PointTests

/-! ## `src/ecc/secp256k1.rs` and `src/ecc/secp256k1/sec_format.rs` -/

namespace Secp256k1

/-- `P = 2²⁵⁶ − 2³² − 977`. -/
def P : Int := 2 ^ 256 - 2 ^ 32 - 977

/-- The group order `N`
(`0xfffffffffffffffffffffffffffffffebaaedce6af48a03bbfd25e8cd0364141`). -/
def N : Int := 115792089237316195423570985008687907852837564279074904382605163141518161494337

/-- `A = 0`. -/
def A : Int := 0

/-- `B = 7`. -/
def B : Int := 7

/-- `Field::new(num)` = `FieldElement::new(num, P)`, which never fails for the
positive modulus `P` (witnessed by `fieldElem_new` below). -/
def fieldElem (num : Int) : FieldElement := ⟨num.tmod P, P⟩

theorem fieldElem_new (num : Int) : FieldElement.new num P = some (fieldElem num) := by
  have hP : (0 : Int) < P := by norm_num [P]
  have h := Int.tmod_lt_of_pos num hP
  rw [FieldElement.new, fieldElem, if_neg (by omega)]

/-- The secp256k1 curve `CurveOverFiniteField::new(Field::new(A), Field::new(B))`. -/
def curve : CurveOverFiniteField := ⟨fieldElem A, fieldElem B⟩

/-- `Point::new(coordinate)` of the secp256k1 module: validation against the
fixed curve. -/
def pointNew (coordinate : Option Coordinate) : Option Point :=
  Point.new coordinate curve

/-- The generator `G`. -/
def G : Point :=
  ⟨some ⟨fieldElem 55066263022277343669578718895168534326250603453777594175500187360389116729240,
         fieldElem 32670510020758816978083085130507043184471273380659243275938904335757337482424⟩,
   curve⟩

/-- `impl Mul<&BigInt> for &Point` (secp256k1): the scalar is reduced
`mod_floor N` before the generic double-and-add. -/
def mul (p : Point) (k : Int) : Option Point :=
  Point.mul p (k.fmod N)

/-- `Signature { r, s }`. -/
structure Signature where
  r : Int
  s : Int
deriving DecidableEq

/-- `Point::try_from(&[u8])`, the SEC decoder: dispatch on the lead byte,
with the source's arms in order (`0x04` with a length guard, `0x02`/`0x03`
with a length guard, anything else an error). `none` is any decode failure
(including a point failing curve validation). -/
def tryFrom (value : List Nat) : Option Point :=
  match value.head? with
  | none => none
  | some lead =>
    if lead = 4 then
      if value.length < 65 then none
      else pointNew (some ⟨fieldElem (bytesToNat ((value.drop 1).take 32)),
                           fieldElem (bytesToNat ((value.drop 33).take 32))⟩)
    else if lead = 2 ∨ lead = 3 then
      if value.length < 33 then none
      else
        let yIsEven := lead = 2
        let x := fieldElem (bytesToNat ((value.drop 1).take 32))
        do
          let x3 ← FieldElement.pow x 3
          let alpha ← FieldElement.add x3 (fieldElem B)
          let beta ← FieldElement.pow alpha ((P + 1).tdiv 4)
          let chosen := if yIsEven ∧ beta.num.emod 2 = 0 then beta
                        else fieldElem (P - beta.num)
          pointNew (some ⟨x, chosen⟩)
    else none

/-- `Point::verify(z, sig)`: `none` would mark a panic inside the two scalar
multiplications; the boolean is the verification result, with a failing
addition or an identity `total` giving `false` via `unwrap_or_default`. -/
def verify (self : Point) (z : Int) (sig : Signature) : Option Bool := do
  let sInv := modpowNonneg sig.s (N - 2) N
  let u := (z * sInv).fmod N
  let v := (sig.r * sInv).fmod N
  let gu ← mul G u
  let pv ← mul self v
  some (match Point.add gu pv with
        | .ok t =>
          match t.coordinate with
          | some c => decide (c.x.num = sig.r)
          | none => false
        | .error _ => false)

/-- `PrivateKey::sign(z)` with the ephemeral draw
`thread_rng().gen_bigint(129)` made an explicit argument `k`. The outer
`Option` is the panic channel of `G * k`; the inner one is the source's
`Option<Signature>`, `none` when `k·G` is the identity. -/
def sign (secret z k : Int) : Option (Option Signature) := do
  let R ← mul G k
  match R.coordinate with
  | none => some none
  | some co =>
    let r := co.x.num
    let kInv := modpowNonneg k (N - 2) N
    let s0 := ((z + r * secret) * kInv).fmod N
    some (some ⟨r, if N.tdiv 2 < s0 then N - s0 else s0⟩)

/-- `<Compressed as SecFormat>::sec`, applied to the public point of the key:
`some none` is the source's `None` output on the identity; the outer `none`
is the `copy_from_slice` panic when the x-coordinate's minimal big-endian
bytes are not exactly 32. -/
def compressedSec (point : Point) : Option (Option (List Nat)) :=
  match point.coordinate with
  | none => some none
  | some ⟨x, y⟩ =>
    let xb := natBytesBE x.num.natAbs
    if xb.length = 32 then
      some (some ((if y.num.emod 2 = 0 then 2 else 3) :: xb))
    else none

/-- `<Uncompressed as SecFormat>::sec`, same conventions as `compressedSec`;
both coordinates must serialize to exactly 32 bytes. -/
def uncompressedSec (point : Point) : Option (Option (List Nat)) :=
  match point.coordinate with
  | none => some none
  | some ⟨x, y⟩ =>
    let xb := natBytesBE x.num.natAbs
    let yb := natBytesBE y.num.natAbs
    if xb.length = 32 then
      if yb.length = 32 then some (some (4 :: xb ++ yb)) else none
    else none

-- The generator satisfies the curve equation (the `lazy_static` `G` uses
-- `Point::new(...).unwrap()`).
set_option maxRecDepth 40000 in
example : pointNew G.coordinate = some G := by decide

end Secp256k1

/-! ## Claim theorems -/

/-- Claim C1 (code evaluation at the failing input). Decoding the compressed
SEC string `0x03 ‖ be32(2)` — lead byte `0x03` requesting an *odd* y, with
`x = 2` and `x³ + 7 = 15` a quadratic residue mod `P` — succeeds but returns
the point whose y-coordinate `P − beta` is *even*: the guard
`y_is_even && beta.is_even()` collapses the parity match incorrectly whenever
the candidate root `beta` is odd and odd parity was requested. -/
theorem c1_decode_returns_even_y_for_odd_lead_byte :
    Secp256k1.tryFrom (3 :: (List.replicate 31 0 ++ [2])) =
        some ⟨some ⟨⟨2, Secp256k1.P⟩,
          ⟨46580984542418694471253469931035885126779956971428003686700937153791839982430,
            Secp256k1.P⟩⟩, Secp256k1.curve⟩ ∧
      (46580984542418694471253469931035885126779956971428003686700937153791839982430 :
        Int).emod 2 = 0 :=
  ⟨by set_option maxRecDepth 1000000 in decide, by decide⟩

/-- The valid secp256k1 point `(2²⁴⁸ + 1, y)` with odd
`y = (x³+7)^((P+1)/4) mod P`; its x-coordinate occupies exactly 32 bytes, so
compressed SEC encoding succeeds, and the compressed round-trip of claim C4
can be evaluated on it. -/
def roundTripPoint : Point :=
  ⟨some ⟨⟨452312848583266388373324160190187140051835877600158453279131187530910662657,
          Secp256k1.P⟩,
         ⟨60403046213466852368020424604411165071298462413936164288198111636365709248669,
          Secp256k1.P⟩⟩,
   Secp256k1.curve⟩

/-- The point returned by decoding the compressed encoding of
`roundTripPoint`: same x, but the mirrored even y-coordinate `P − y`. -/
def roundTripMirror : Point :=
  ⟨some ⟨⟨452312848583266388373324160190187140051835877600158453279131187530910662657,
          Secp256k1.P⟩,
         ⟨55389043023849343055550560404276742781971522251704399751259472371543125422994,
          Secp256k1.P⟩⟩,
   Secp256k1.curve⟩

/-- Claim C4 (code evaluation at the failing input). `roundTripPoint` is a
valid non-identity secp256k1 point (its coordinates pass `Point::new`), its
compressed SEC encoding succeeds, but decoding that encoding returns the
*mirrored* point (even y) instead of the original: `decode ∘ encode ≠ id`
for the compressed form, breaking the SEC round-trip property. -/
theorem c4_compressed_round_trip_fails :
    Secp256k1.pointNew roundTripPoint.coordinate = some roundTripPoint ∧
      Secp256k1.compressedSec roundTripPoint =
        some (some (3 :: natBytesBE
          452312848583266388373324160190187140051835877600158453279131187530910662657)) ∧
      Secp256k1.tryFrom (3 :: natBytesBE
          452312848583266388373324160190187140051835877600158453279131187530910662657) =
        some roundTripMirror ∧
      roundTripMirror ≠ roundTripPoint :=
  ⟨by set_option maxRecDepth 1000000 in decide,
   by set_option maxRecDepth 1000000 in decide,
   by set_option maxRecDepth 1000000 in decide,
   by decide⟩

/-- Claim C3, counterexample. Adding the identity point carrying the curve
`y² = x³ + 5x + 7` over `GF(223)` to the valid point `(192, 105)` on the
curve `y² = x³ + 7` over `GF(223)` fails with `CurveMismatch` instead of
returning the point: the curve-equality check precedes the identity cases,
refuting the claimed precedence order. -/
theorem c3_identity_on_other_curve_is_rejected :
    Point.add ⟨none, ⟨⟨5, 223⟩, ⟨7, 223⟩⟩⟩ ⟨some ⟨⟨192, 223⟩, ⟨105, 223⟩⟩, curve223⟩
      = .error .curveMismatch := by decide

/-- Claim C3, amended: point addition checks curve equality *first*; when the
curves differ it fails with `CurveMismatch` even if an operand is the
identity, and the identity cases `I + P = P`, `P + I = P` apply (only) to
operands of equal curves. -/
theorem c3_curve_check_precedes_identity (p q : Point) (hne : p.curve ≠ q.curve) :
    Point.add p q = .error .curveMismatch ∧
      Point.add ⟨none, p.curve⟩ p = .ok p ∧
      Point.add p ⟨none, p.curve⟩ = .ok p := by
  obtain ⟨co, cu⟩ := p
  refine ⟨?_, ?_, ?_⟩
  · rw [Point.add, if_pos hne]
  · cases co <;> simp [Point.add]
  · cases co <;> simp [Point.add]

/-- Claim C3, witness for the amended theorem at a concrete input: the point
`(192, 105)` on `y² = x³ + 7` over `GF(223)` against the curve
`y² = x³ + 5x + 7`. -/
theorem c3_curve_check_precedes_identity_witness :
    Point.add ⟨some ⟨⟨192, 223⟩, ⟨105, 223⟩⟩, curve223⟩ ⟨none, ⟨⟨5, 223⟩, ⟨7, 223⟩⟩⟩
        = .error .curveMismatch ∧
      Point.add ⟨none, curve223⟩ ⟨some ⟨⟨192, 223⟩, ⟨105, 223⟩⟩, curve223⟩
        = .ok ⟨some ⟨⟨192, 223⟩, ⟨105, 223⟩⟩, curve223⟩ ∧
      Point.add ⟨some ⟨⟨192, 223⟩, ⟨105, 223⟩⟩, curve223⟩ ⟨none, curve223⟩
        = .ok ⟨some ⟨⟨192, 223⟩, ⟨105, 223⟩⟩, curve223⟩ :=
  c3_curve_check_precedes_identity ⟨some ⟨⟨192, 223⟩, ⟨105, 223⟩⟩, curve223⟩
    ⟨none, ⟨⟨5, 223⟩, ⟨7, 223⟩⟩⟩ (by decide)

/-- Claim C7 (code evaluation at the failing inputs). `new(-5, 7)` succeeds
and stores the *negative* value `-5` (Rust's `%` truncates toward zero), in
violation of the invariant `0 ≤ value < prime`; and `new(8, 7)` succeeds with
value `1` although the crate's own unit test asserts that it errors — the
defensive bound check compares the already-reduced value, so it never
fires for a positive modulus. -/
theorem c7_new_stores_negative_value :
    FieldElement.new (-5) 7 = some ⟨-5, 7⟩ ∧ (-5 : Int) < 0 ∧
      FieldElement.new 8 7 = some ⟨1, 7⟩ := by decide

/-- Claim C8, counterexample. For the field element `3 mod 7` and exponent
`-20 < -(7-1)`, a single rewrite `-1 + 7 + (-20) = -14` leaves the exponent
negative, and `modpow` panics: `pow` is not defined for every negative
exponent. -/
theorem c8_pow_panics_below_neg_p_minus_one :
    FieldElement.pow ⟨3, 7⟩ (-20) = none := by decide

theorem modpowNonneg_eq (b e m : Int) (hm : 0 < m) :
    modpowNonneg b e m = (b ^ e.toNat).emod m := by
  have hmt : (0 : Nat) < m.toNat := by omega
  rw [modpowNonneg, natPowMod_correct _ _ _ hmt]
  have h1 : ((b.emod m).toNat : Int) = b.emod m :=
    Int.toNat_of_nonneg (Int.emod_nonneg b (by omega))
  have h2 : ((m.toNat : Int)) = m := Int.toNat_of_nonneg (by omega)
  push_cast
  rw [h1, h2]
  exact Int.ModEq.pow e.toNat (show b % m ≡ b [ZMOD m] from Int.emod_emod_of_dvd b dvd_rfl)

/-- Claim C8, amended: for a negative exponent `e`, `pow` adds `prime − 1`
exactly *once*; when the rewritten exponent `-1 + prime + e` is non-negative
(i.e. `e ≥ -(prime-1)`) it returns `num^(e + prime - 1) mod prime`, and
otherwise (`e < -(prime-1)`) the computation panics. -/
theorem c8_pow_adds_p_minus_one_once (a : FieldElement) (e : Int)
    (hp : 0 < a.prime) (he : e < 0) (hge : 0 ≤ -1 + a.prime + e) :
    FieldElement.pow a e =
      some ⟨(a.num ^ (-1 + a.prime + e).toNat).emod a.prime, a.prime⟩ := by
  rw [FieldElement.pow]
  simp only [if_pos he, intModPow, if_neg (by omega : ¬(-1 + a.prime + e < 0)),
    modpowNonneg_eq _ _ _ hp]
  rfl

/-- Claim C8, witness for the amended theorem: `pow(17 mod 31, -3)` (the
crate's own test vector) equals `17^27 mod 31 = 29`. -/
theorem c8_pow_adds_p_minus_one_once_witness :
    FieldElement.pow ⟨17, 31⟩ (-3) =
      some ⟨((17 : Int) ^ ((-1 : Int) + 31 + -3).toNat).emod 31, 31⟩ :=
  c8_pow_adds_p_minus_one_once ⟨17, 31⟩ (-3) (by decide) (by decide) (by decide)

/-- Claim C9, counterexample. Dividing `3 mod 7` by the zero element of
`GF(7)` is silently accepted: it returns the ordinary field element `0` as a
success value (`3 · 0^(7-2) mod 7 = 0`), it does not fail. -/
theorem c9_div_by_zero_succeeds :
    FieldElement.div ⟨3, 7⟩ ⟨0, 7⟩ = some ⟨0, 7⟩ := by decide

/-- Claim C9, amended: for any field element `a` with modulus at least 3,
dividing by the zero element of the same field *succeeds* and returns the
zero element (`a · 0^(prime−2) mod prime = 0`); rejecting zero divisors is
left to the caller as a precondition. -/
theorem c9_div_by_zero_returns_zero (a : FieldElement) (hp : 3 ≤ a.prime) :
    FieldElement.div a ⟨0, a.prime⟩ = some ⟨0, a.prime⟩ := by
  rw [FieldElement.div, if_neg (show ¬(a.prime ≠ a.prime) from fun h => h rfl)]
  rw [intModPow, if_neg (by omega : ¬(a.prime - 2 < 0)),
    modpowNonneg_eq _ _ _ (show (0 : Int) < a.prime by omega)]
  have h2 : (0 : Int) ^ (a.prime - 2).toNat = 0 := by
    rw [zero_pow]
    omega
  have h3 : Int.emod 0 a.prime = 0 := Int.zero_emod a.prime
  simp only [h2, h3, mul_zero, Option.map]
  rw [Int.zero_tmod]

/-- Claim C9, witness for the amended theorem: `div(5 mod 11, 0 mod 11)`
returns the zero element. -/
theorem c9_div_by_zero_returns_zero_witness :
    FieldElement.div ⟨5, 11⟩ ⟨0, 11⟩ = some ⟨0, 11⟩ :=
  c9_div_by_zero_returns_zero ⟨5, 11⟩ (by decide)

/-- Claim C10. SEC encoding is total only on non-identity points whose
coordinate magnitudes occupy exactly 32 big-endian bytes: the identity
serializes to the source's `None` in both forms; a compressed encoding
panics (no left zero-padding is attempted) whenever the x-coordinate is
below `2²⁴⁸`; an uncompressed encoding panics whenever the x- or the
y-coordinate is below `2²⁴⁸`; and a compressed encoding of a point whose
x-coordinate occupies exactly 32 bytes succeeds with 33 bytes. -/
theorem c10_sec_encoding_partiality
    (pi pc pu ps : Point) (xc yc xu yu xs ys : FieldElement)
    (hi : pi.coordinate = none)
    (hc : pc.coordinate = some ⟨xc, yc⟩) (hxc : xc.num.natAbs < 2 ^ 248)
    (hu : pu.coordinate = some ⟨xu, yu⟩)
    (hxyu : xu.num.natAbs < 2 ^ 248 ∨ yu.num.natAbs < 2 ^ 248)
    (hs : ps.coordinate = some ⟨xs, ys⟩)
    (hs1 : 2 ^ 248 ≤ xs.num.natAbs) (hs2 : xs.num.natAbs < 2 ^ 256) :
    Secp256k1.compressedSec pi = some none ∧
      Secp256k1.uncompressedSec pi = some none ∧
      Secp256k1.compressedSec pc = none ∧
      Secp256k1.uncompressedSec pu = none ∧
      ∃ bs, Secp256k1.compressedSec ps = some (some bs) ∧ bs.length = 33 := by
  have h248 : (2 : Nat) ^ 248 = 256 ^ 31 := by norm_num
  have h256 : (2 : Nat) ^ 256 = 256 ^ 32 := by norm_num
  obtain ⟨pico, picu⟩ := pi
  obtain ⟨pcco, pccu⟩ := pc
  obtain ⟨puco, pucu⟩ := pu
  obtain ⟨psco, pscu⟩ := ps
  simp only at hi hc hu hs
  subst hi hc hu hs
  refine ⟨rfl, rfl, ?_, ?_, ?_⟩
  · have hlen := natBytesBE_length_lt_32 xc.num.natAbs (h248 ▸ hxc)
    simp only [Secp256k1.compressedSec]
    rw [if_neg (by omega)]
  · simp only [Secp256k1.uncompressedSec]
    rcases hxyu with hx | hy
    · have hlen := natBytesBE_length_lt_32 xu.num.natAbs (h248 ▸ hx)
      rw [if_neg (by omega)]
    · have hlen := natBytesBE_length_lt_32 yu.num.natAbs (h248 ▸ hy)
      by_cases hxl : (natBytesBE xu.num.natAbs).length = 32
      · rw [if_pos hxl, if_neg (by omega)]
      · rw [if_neg hxl]
  · have hlen := natBytesBE_length_eq_32 xs.num.natAbs (h248 ▸ hs1) (h256 ▸ hs2)
    simp only [Secp256k1.compressedSec]
    rw [if_pos hlen]
    exact ⟨_, rfl, by simp [hlen]⟩

/-- Claim C10, witness: the identity point, the valid point `(1, y₁)` on
secp256k1 (whose x-coordinate needs a single byte), and a point with
x-coordinate `2²⁵⁵`. -/
theorem c10_sec_encoding_partiality_witness :
    Secp256k1.compressedSec ⟨none, Secp256k1.curve⟩ = some none ∧
      Secp256k1.uncompressedSec ⟨none, Secp256k1.curve⟩ = some none ∧
      Secp256k1.compressedSec ⟨some ⟨⟨1, Secp256k1.P⟩,
        ⟨29896722852569046015560700294576055776214335159245303116488692907525646231534,
          Secp256k1.P⟩⟩, Secp256k1.curve⟩ = none ∧
      Secp256k1.uncompressedSec ⟨some ⟨⟨1, Secp256k1.P⟩,
        ⟨29896722852569046015560700294576055776214335159245303116488692907525646231534,
          Secp256k1.P⟩⟩, Secp256k1.curve⟩ = none ∧
      ∃ bs, Secp256k1.compressedSec ⟨some ⟨⟨2 ^ 255, Secp256k1.P⟩, ⟨5, Secp256k1.P⟩⟩,
        Secp256k1.curve⟩ = some (some bs) ∧ bs.length = 33 :=
  c10_sec_encoding_partiality
    ⟨none, Secp256k1.curve⟩
    ⟨some ⟨⟨1, Secp256k1.P⟩,
      ⟨29896722852569046015560700294576055776214335159245303116488692907525646231534,
        Secp256k1.P⟩⟩, Secp256k1.curve⟩
    ⟨some ⟨⟨1, Secp256k1.P⟩,
      ⟨29896722852569046015560700294576055776214335159245303116488692907525646231534,
        Secp256k1.P⟩⟩, Secp256k1.curve⟩
    ⟨some ⟨⟨2 ^ 255, Secp256k1.P⟩, ⟨5, Secp256k1.P⟩⟩, Secp256k1.curve⟩
    _ _ _ _ _ _ rfl rfl (by set_option maxRecDepth 10000 in decide) rfl
    (Or.inl (by set_option maxRecDepth 10000 in decide)) rfl
    (by set_option maxRecDepth 10000 in decide)
    (by set_option maxRecDepth 10000 in decide)

/-- Claim C5. `verify(publicPoint, z, signature)` returns `true` exactly when,
with `s_inv = s^(N-2) mod N`, `u = z·s_inv mod N` and `v = r·s_inv mod N`,
both scalar multiplications complete, `total = u·G + v·publicPoint` is a
non-identity point, and the integer magnitude of its x-coordinate equals `r`
directly (no re-reduction modulo `N`); in every other case — a failing
addition or an identity `total` — it returns `false`. -/
theorem c5_verify_semantics (pt : Point) (z : Int) (sig : Secp256k1.Signature) :
    Secp256k1.verify pt z sig = some true ↔
      ∃ gu pv t co,
        Secp256k1.mul Secp256k1.G
            ((z * modpowNonneg sig.s (Secp256k1.N - 2) Secp256k1.N).fmod Secp256k1.N)
          = some gu ∧
        Secp256k1.mul pt
            ((sig.r * modpowNonneg sig.s (Secp256k1.N - 2) Secp256k1.N).fmod Secp256k1.N)
          = some pv ∧
        Point.add gu pv = .ok t ∧ t.coordinate = some co ∧ co.x.num = sig.r := by
  rw [Secp256k1.verify]
  cases hgu : Secp256k1.mul Secp256k1.G
      ((z * modpowNonneg sig.s (Secp256k1.N - 2) Secp256k1.N).fmod Secp256k1.N) with
  | none =>
    simp only [Option.bind_eq_bind, Option.none_bind]
    constructor
    · intro h; exact Option.noConfusion h
    · rintro ⟨gu, pv, t, co, hg, -⟩
      exact Option.noConfusion hg
  | some gu =>
    simp only [Option.bind_eq_bind, Option.some_bind]
    cases hpv : Secp256k1.mul pt
        ((sig.r * modpowNonneg sig.s (Secp256k1.N - 2) Secp256k1.N).fmod Secp256k1.N) with
    | none =>
      simp only [Option.bind_eq_bind, Option.none_bind]
      constructor
      · intro h; exact Option.noConfusion h
      · rintro ⟨gu', pv, t, co, -, hp, -⟩
        exact Option.noConfusion hp
    | some pv =>
      simp only [Option.bind_eq_bind, Option.some_bind, Option.some_inj]
      cases hadd : Point.add gu pv with
      | error e =>
        constructor
        · intro h; simp at h
        · rintro ⟨gu', pv', t, co, hg, hp, ha, -⟩
          obtain rfl := hg
          obtain rfl := hp
          rw [hadd] at ha
          exact Except.noConfusion ha
      | ok t =>
        cases hco : t.coordinate with
        | none =>
          constructor
          · intro h; simp [hco] at h
          · rintro ⟨gu', pv', t', co, hg, hp, ha, hc, -⟩
            obtain rfl := hg
            obtain rfl := hp
            rw [hadd] at ha
            obtain rfl := Except.ok.inj ha
            rw [hco] at hc
            exact Option.noConfusion hc
        | some co =>
          constructor
          · intro h
            simp only [hco] at h
            exact ⟨gu, pv, t, co, rfl, rfl, hadd, hco, of_decide_eq_true h⟩
          · rintro ⟨gu', pv', t', co', hg, hp, ha, hc, hr⟩
            obtain rfl := hg
            obtain rfl := hp
            rw [hadd] at ha
            obtain rfl := Except.ok.inj ha
            rw [hco] at hc
            obtain rfl := Option.some_inj.mp hc
            simp only [hco]
            exact decide_eq_true hr

/-! ## Correspondence of the embedded arithmetic with `ZMod p`, towards the
double-and-add claim -/

/-- Well-formedness of a field element over the prime `p`: the declared
modulus is `p` and the value is reduced into `[0, p)`. -/
def FEwf (p : Nat) (a : FieldElement) : Prop :=
  a.prime = (p : Int) ∧ 0 ≤ a.num ∧ a.num < (p : Int)

instance (p : Nat) (a : FieldElement) : Decidable (FEwf p a) :=
  inferInstanceAs (Decidable (_ ∧ _ ∧ _))

theorem intCast_emod_zmod (p : Nat) (a : Int) :
    ((a.emod (p : Int) : Int) : ZMod p) = (a : ZMod p) := by
  show (((a % (p : Int) : Int)) : ZMod p) = (a : ZMod p)
  rw [Int.emod_def]
  push_cast
  simp [ZMod.natCast_self]

theorem FEwf.cast_inj {p : Nat} {a b : FieldElement} (ha : FEwf p a) (hb : FEwf p b)
    (h : (a.num : ZMod p) = (b.num : ZMod p)) : a = b := by
  obtain ⟨hpa, ha0, ha1⟩ := ha
  obtain ⟨hpb, hb0, hb1⟩ := hb
  have hmod : a.num % (p : Int) = b.num % (p : Int) :=
    (ZMod.intCast_eq_intCast_iff' a.num b.num p).mp h
  rw [Int.emod_eq_of_lt ha0 ha1, Int.emod_eq_of_lt hb0 hb1] at hmod
  obtain ⟨na, pa⟩ := a
  obtain ⟨nb, pb⟩ := b
  simp only at hpa hpb hmod
  rw [hmod, hpa, hpb]

theorem feAdd_corr {p : Nat} (hp : 0 < p) {a b : FieldElement}
    (ha : FEwf p a) (hb : FEwf p b) :
    ∃ c, FieldElement.add a b = some c ∧ FEwf p c ∧
      (c.num : ZMod p) = (a.num : ZMod p) + (b.num : ZMod p) := by
  have hpz : (0 : Int) < (p : Int) := by exact_mod_cast hp
  refine ⟨⟨(a.num + b.num).fmod a.prime, a.prime⟩, ?_, ?_, ?_⟩
  · rw [FieldElement.add, if_neg (by rw [ha.1, hb.1]; simp)]
  · refine ⟨ha.1, ?_, ?_⟩
    · rw [ha.1, Int.fmod_eq_emod _ (le_of_lt hpz)]
      exact Int.emod_nonneg _ (by omega)
    · rw [ha.1, Int.fmod_eq_emod _ (le_of_lt hpz)]
      exact Int.emod_lt_of_pos _ hpz
  · simp only [ha.1, Int.fmod_eq_emod _ (le_of_lt hpz), intCast_emod_zmod]
    push_cast
    ring

theorem feSub_corr {p : Nat} (hp : 0 < p) {a b : FieldElement}
    (ha : FEwf p a) (hb : FEwf p b) :
    ∃ c, FieldElement.sub a b = some c ∧ FEwf p c ∧
      (c.num : ZMod p) = (a.num : ZMod p) - (b.num : ZMod p) := by
  have hpz : (0 : Int) < (p : Int) := by exact_mod_cast hp
  rw [FieldElement.sub, if_neg (by rw [ha.1, hb.1]; simp)]
  by_cases hle : b.num ≤ a.num
  · refine ⟨⟨a.num - b.num, a.prime⟩, by rw [if_pos hle], ⟨ha.1, ?_, ?_⟩, ?_⟩
    · show (0 : Int) ≤ a.num - b.num
      have := hb.2.1
      omega
    · show a.num - b.num < (p : Int)
      have := ha.2.2
      have := hb.2.1
      omega
    · show ((a.num - b.num : Int) : ZMod p) = _
      push_cast
      ring
  · refine ⟨⟨b.prime - (b.num - a.num), b.prime⟩, by rw [if_neg hle], ⟨hb.1, ?_, ?_⟩, ?_⟩
    · show (0 : Int) ≤ b.prime - (b.num - a.num)
      rw [hb.1]
      have := hb.2.2
      have := ha.2.1
      omega
    · show b.prime - (b.num - a.num) < (p : Int)
      rw [hb.1]
      have := ha.2.1
      omega
    · show ((b.prime - (b.num - a.num) : Int) : ZMod p) = _
      rw [hb.1]
      push_cast
      rw [ZMod.natCast_self]
      ring

theorem feMul_corr {p : Nat} (hp : 0 < p) {a b : FieldElement}
    (ha : FEwf p a) (hb : FEwf p b) :
    ∃ c, FieldElement.mul a b = some c ∧ FEwf p c ∧
      (c.num : ZMod p) = (a.num : ZMod p) * (b.num : ZMod p) := by
  have hpz : (0 : Int) < (p : Int) := by exact_mod_cast hp
  refine ⟨⟨(a.num * b.num).fmod a.prime, a.prime⟩, ?_, ?_, ?_⟩
  · rw [FieldElement.mul, if_neg (by rw [ha.1, hb.1]; simp)]
  · refine ⟨ha.1, ?_, ?_⟩
    · rw [ha.1, Int.fmod_eq_emod _ (le_of_lt hpz)]
      exact Int.emod_nonneg _ (by omega)
    · rw [ha.1, Int.fmod_eq_emod _ (le_of_lt hpz)]
      exact Int.emod_lt_of_pos _ hpz
  · simp only [ha.1, Int.fmod_eq_emod _ (le_of_lt hpz), intCast_emod_zmod]
    push_cast
    ring

theorem fePow_corr {p : Nat} (hp : 0 < p) {a : FieldElement} (ha : FEwf p a)
    (e : Int) (he : 0 ≤ e) :
    ∃ c, FieldElement.pow a e = some c ∧ FEwf p c ∧
      (c.num : ZMod p) = (a.num : ZMod p) ^ e.toNat := by
  have hpz : (0 : Int) < (p : Int) := by exact_mod_cast hp
  refine ⟨⟨modpowNonneg a.num e a.prime, a.prime⟩, ?_, ?_, ?_⟩
  · rw [FieldElement.pow]
    simp only [if_neg (by omega : ¬e < 0), intModPow, if_neg (by omega : ¬e < 0)]
    rfl
  · rw [ha.1]
    refine ⟨rfl, ?_, ?_⟩
    · show (0 : Int) ≤ modpowNonneg a.num e (p : Int)
      rw [modpowNonneg_eq _ _ _ hpz]
      exact Int.emod_nonneg _ (by omega)
    · show modpowNonneg a.num e (p : Int) < (p : Int)
      rw [modpowNonneg_eq _ _ _ hpz]
      exact Int.emod_lt_of_pos _ hpz
  · show ((modpowNonneg a.num e a.prime : Int) : ZMod p) = _
    rw [ha.1, modpowNonneg_eq _ _ _ hpz, intCast_emod_zmod]
    push_cast
    rfl

theorem feNew_corr {p : Nat} (hp : 0 < p) (n : Int) (hn : 0 ≤ n) :
    ∃ c, FieldElement.new n (p : Int) = some c ∧ FEwf p c ∧
      (c.num : ZMod p) = (n : ZMod p) := by
  have hpz : (0 : Int) < (p : Int) := by exact_mod_cast hp
  have htm : n.tmod (p : Int) = n.emod (p : Int) := Int.tmod_eq_emod hn (le_of_lt hpz)
  have h0 : 0 ≤ n.emod (p : Int) := Int.emod_nonneg _ (by omega)
  have h1 : n.emod (p : Int) < (p : Int) := Int.emod_lt_of_pos _ hpz
  refine ⟨⟨n.tmod (p : Int), (p : Int)⟩, ?_, ⟨rfl, ?_, ?_⟩, ?_⟩
  · rw [FieldElement.new, if_neg (by omega)]
  · show (0 : Int) ≤ n.tmod (p : Int)
    omega
  · show n.tmod (p : Int) < (p : Int)
    omega
  · show ((n.tmod (p : Int) : Int) : ZMod p) = _
    rw [htm, intCast_emod_zmod]

theorem zmod_pow_card_sub_two {p : Nat} [Fact p.Prime] {a : ZMod p} (ha : a ≠ 0) :
    a ^ (p - 2) = a⁻¹ := by
  have hp2 : 2 ≤ p := (Fact.out : p.Prime).two_le
  have h1 : a * a ^ (p - 2) = 1 := by
    rw [← pow_succ']
    have he : p - 2 + 1 = p - 1 := by omega
    rw [he]
    exact ZMod.pow_card_sub_one_eq_one ha
  exact (inv_eq_of_mul_eq_one_right h1).symm

theorem feDiv_corr {p : Nat} [Fact p.Prime] {a b : FieldElement}
    (ha : FEwf p a) (hb : FEwf p b) (hb0 : (b.num : ZMod p) ≠ 0) :
    ∃ c, FieldElement.div a b = some c ∧ FEwf p c ∧
      (c.num : ZMod p) = (a.num : ZMod p) / (b.num : ZMod p) := by
  have hp2 : 2 ≤ p := (Fact.out : p.Prime).two_le
  have hpz : (0 : Int) < (p : Int) := by exact_mod_cast Nat.lt_of_lt_of_le Nat.zero_lt_two hp2
  have hinv0 : 0 ≤ modpowNonneg b.num (a.prime - 2) b.prime := by
    rw [hb.1, modpowNonneg_eq _ _ _ hpz]
    exact Int.emod_nonneg _ (by omega)
  have htm : (a.num * modpowNonneg b.num (a.prime - 2) b.prime).tmod b.prime
      = (a.num * modpowNonneg b.num (a.prime - 2) b.prime).emod b.prime :=
    Int.tmod_eq_emod (mul_nonneg ha.2.1 hinv0) (by rw [hb.1]; omega)
  refine ⟨⟨(a.num * modpowNonneg b.num (a.prime - 2) b.prime).tmod b.prime, a.prime⟩,
    ?_, ?_, ?_⟩
  · rw [FieldElement.div, if_neg (by rw [ha.1, hb.1]; simp), intModPow,
      if_neg (by rw [ha.1]; omega : ¬a.prime - 2 < 0)]
    rfl
  · refine ⟨ha.1, ?_, ?_⟩
    · show (0 : Int) ≤ (a.num * modpowNonneg b.num (a.prime - 2) b.prime).tmod b.prime
      rw [htm, hb.1]
      exact Int.emod_nonneg _ (by omega)
    · show (a.num * modpowNonneg b.num (a.prime - 2) b.prime).tmod b.prime < (p : Int)
      rw [htm, hb.1]
      exact Int.emod_lt_of_pos _ hpz
  · show (((a.num * modpowNonneg b.num (a.prime - 2) b.prime).tmod b.prime : Int) : ZMod p)
        = _
    rw [htm, hb.1, intCast_emod_zmod]
    push_cast
    rw [ha.1, modpowNonneg_eq _ _ _ hpz, intCast_emod_zmod]
    push_cast
    have ht : ((p : Int) - 2).toNat = p - 2 := by omega
    rw [ht, zmod_pow_card_sub_two hb0, div_eq_mul_inv]

/-- The short Weierstrass curve `y² = x³ + a·x + b` over `ZMod p`
corresponding to an embedded curve. -/
def wCurve (p : Nat) (C : CurveOverFiniteField) : WeierstrassCurve.Affine (ZMod p) :=
  { a₁ := 0, a₂ := 0, a₃ := 0, a₄ := (C.a.num : ZMod p), a₆ := (C.b.num : ZMod p) }

/-- Well-formedness of an embedded curve over the prime `p`. -/
def CurveWF (p : Nat) (C : CurveOverFiniteField) : Prop :=
  FEwf p C.a ∧ FEwf p C.b

instance (p : Nat) (C : CurveOverFiniteField) : Decidable (CurveWF p C) :=
  inferInstanceAs (Decidable (_ ∧ _))

/-- An embedded point `P` represents a nonsingular Mathlib point `Q` on the
corresponding Weierstrass curve: identity to `zero`, and a well-formed
coordinate pair to `some` with the cast coordinates. -/
def Represents (p : Nat) (C : CurveOverFiniteField) (P : Point)
    (Q : (wCurve p C).Point) : Prop :=
  P.curve = C ∧
    ((P.coordinate = none ∧ Q = 0) ∨
     (∃ (fx fy : FieldElement)
        (h : (wCurve p C).Nonsingular (fx.num : ZMod p) (fy.num : ZMod p)),
       P.coordinate = some ⟨fx, fy⟩ ∧ FEwf p fx ∧ FEwf p fy ∧ Q = .some h))

theorem affinePoint_some_congr {F : Type} [Field F] {W : WeierstrassCurve.Affine F}
    {x₁ y₁ x₂ y₂ : F} (hx : x₁ = x₂) (hy : y₁ = y₂) (h₁ : W.Nonsingular x₁ y₁)
    (h₂ : W.Nonsingular x₂ y₂) :
    (WeierstrassCurve.Affine.Point.some h₁ : W.Point) = .some h₂ := by
  subst hx
  subst hy
  rfl

theorem pointNew_some_iff {p : Nat} (hp : 0 < p) {C : CurveOverFiniteField}
    (hC : CurveWF p C) {x y : FieldElement} (hx : FEwf p x) (hy : FEwf p y) :
    Point.new (some ⟨x, y⟩) C = some ⟨some ⟨x, y⟩, C⟩ ↔
      (wCurve p C).Equation (x.num : ZMod p) (y.num : ZMod p) := by
  obtain ⟨lhs, hlhs, hlw, hlc⟩ := feMul_corr hp hy hy
  obtain ⟨t1, ht1, ht1w, ht1c⟩ := feMul_corr hp hx hC.1
  obtain ⟨x3, hx3, hx3w, hx3c⟩ := fePow_corr hp hx 3 (by omega)
  obtain ⟨t2, ht2, ht2w, ht2c⟩ := feAdd_corr hp ht1w hx3w
  obtain ⟨rhs, hrhs, hrw, hrc⟩ := feAdd_corr hp ht2w hC.2
  have hkey : lhs = rhs ↔
      (wCurve p C).Equation (x.num : ZMod p) (y.num : ZMod p) := by
    rw [WeierstrassCurve.Affine.equation_iff]
    constructor
    · intro heq
      have : (lhs.num : ZMod p) = (rhs.num : ZMod p) := by rw [heq]
      rw [hlc, hrc, ht2c, ht1c, hx3c] at this
      show _ = (x.num : ZMod p) ^ 3 + (wCurve p C).a₂ * _ ^ 2 + (wCurve p C).a₄ * _
          + (wCurve p C).a₆
      show (y.num : ZMod p) ^ 2 + (wCurve p C).a₁ * _ * _ + (wCurve p C).a₃ * _ = _
      simp only [wCurve]
      rw [show ((3 : Int).toNat = 3) from rfl] at this
      linear_combination this
    · intro hEq
      refine FEwf.cast_inj hlw hrw ?_
      rw [hlc, hrc, ht2c, ht1c, hx3c, show ((3 : Int).toNat = 3) from rfl]
      simp only [wCurve] at hEq
      linear_combination hEq
  simp only [Point.new, hlhs, ht1, hx3, ht2, hrhs, Option.bind_eq_bind,
    Option.some_bind]
  by_cases heq : lhs = rhs
  · rw [if_neg (by simpa using heq)]
    simp only [hkey.mp heq, iff_true]
  · rw [if_pos (by simpa using heq)]
    constructor
    · intro h
      exact Option.noConfusion h
    · intro h
      exact absurd (hkey.mpr h) heq

theorem FEwf.pos {p : Nat} {a : FieldElement} (hw : FEwf p a) : 0 < p := by
  have h1 := hw.2.1
  have h2 := hw.2.2
  by_contra h
  have : p = 0 := by omega
  subst this
  simp at h2
  omega

theorem FEwf.cast_ne_zero {p : Nat} {a : FieldElement} (hw : FEwf p a)
    (h0 : a.num ≠ 0) : (a.num : ZMod p) ≠ 0 := by
  intro h
  apply h0
  have hp : 0 < p := hw.pos
  have hz : FEwf p ⟨0, (p : Int)⟩ := ⟨rfl, le_refl 0, show (0 : Int) < (p : Int) by exact_mod_cast hp⟩
  have := FEwf.cast_inj hw hz (by simpa using h)
  simpa using congrArg FieldElement.num this

theorem FEwf.cast_ne {p : Nat} {a b : FieldElement} (ha : FEwf p a) (hb : FEwf p b)
    (hne : a ≠ b) : (a.num : ZMod p) ≠ (b.num : ZMod p) :=
  fun h => hne (FEwf.cast_inj ha hb h)

set_option maxHeartbeats 1000000 in
theorem pointAdd_sim {p : Nat} [Fact p.Prime] (hp2 : (2 : ZMod p) ≠ 0)
    {C : CurveOverFiniteField} (hC : CurveWF p C)
    {P Q : Point} {P' Q' : (wCurve p C).Point}
    (hP : Represents p C P P') (hQ : Represents p C Q Q') :
    ∃ R, Point.add P Q = .ok R ∧ Represents p C R (P' + Q') := by
  have hp : 0 < p := (Fact.out : p.Prime).pos
  obtain ⟨Pco, Pcu⟩ := P
  obtain ⟨Qco, Qcu⟩ := Q
  obtain ⟨hP1, hPd⟩ := hP
  obtain ⟨hQ1, hQd⟩ := hQ
  rcases hPd with ⟨hPn, rfl⟩ | ⟨x1, y1, h1, hPn, hwx1, hwy1, rfl⟩ <;>
    rcases hQd with ⟨hQn, rfl⟩ | ⟨x2, y2, h2, hQn, hwx2, hwy2, rfl⟩ <;>
      subst hPn <;> subst hQn <;>
      simp only [Point.add] <;> rw [if_neg (by simp [show Pcu = C from hP1, show Qcu = C from hQ1])]
  · -- identity + identity
    refine ⟨⟨none, Pcu⟩, rfl, hP1, Or.inl ⟨rfl, ?_⟩⟩
    rw [add_zero]
  · -- identity + some
    refine ⟨⟨some ⟨x2, y2⟩, Qcu⟩, rfl, hQ1, Or.inr ⟨x2, y2, h2, rfl, hwx2, hwy2, ?_⟩⟩
    rw [zero_add]
  · -- some + identity
    refine ⟨⟨some ⟨x1, y1⟩, Pcu⟩, rfl, hP1, Or.inr ⟨x1, y1, h1, rfl, hwx1, hwy1, ?_⟩⟩
    rw [add_zero]
  · -- some + some
    have hguard : ¬(x1.prime ≠ y1.prime ∨ y1.prime ≠ x2.prime ∨ x2.prime ≠ y2.prime) := by
      rw [hwx1.1, hwy1.1, hwx2.1, hwy2.1]
      simp
    rw [if_neg hguard]
    by_cases hg1 : x1 = x2 ∧ y1 ≠ y2
    · rw [if_pos hg1]
      have hxc : (x1.num : ZMod p) = (x2.num : ZMod p) := by rw [hg1.1]
      have hyc : (y1.num : ZMod p) ≠ (y2.num : ZMod p) := FEwf.cast_ne hwy1 hwy2 hg1.2
      have hyneg : (y1.num : ZMod p) = (wCurve p C).negY (x2.num : ZMod p) (y2.num : ZMod p) :=
        (WeierstrassCurve.Affine.Y_eq_of_X_eq h1.1 h2.1 hxc).resolve_left hyc
      refine ⟨⟨none, Pcu⟩, rfl, hP1, Or.inl ⟨rfl, ?_⟩⟩
      rw [WeierstrassCurve.Affine.Point.add_of_Y_eq hxc hyneg]
    · rw [if_neg hg1]
      by_cases hg2 : x1 = x2 ∧ y1 = y2 ∧ y1.num = 0
      · rw [if_pos hg2]
        have hxc : (x1.num : ZMod p) = (x2.num : ZMod p) := by rw [hg2.1]
        have hy0 : (y1.num : ZMod p) = 0 := by rw [hg2.2.2]; exact Int.cast_zero
        have hyneg : (y1.num : ZMod p)
            = (wCurve p C).negY (x2.num : ZMod p) (y2.num : ZMod p) := by
          rw [WeierstrassCurve.Affine.negY, ← hg2.2.1, hy0]
          simp [wCurve]
        refine ⟨⟨none, Pcu⟩, rfl, hP1, Or.inl ⟨rfl, ?_⟩⟩
        rw [WeierstrassCurve.Affine.Point.add_of_Y_eq hxc hyneg]
      · rw [if_neg hg2]
        by_cases hg3 : x1 = x2 ∧ y1 = y2
        · rw [if_pos hg3]
          obtain ⟨hgx, hgy⟩ := hg3
          subst hgx
          subst hgy
          have hy1ne : y1.num ≠ 0 := fun h => hg2 ⟨rfl, rfl, h⟩
          have hyc0 : (y1.num : ZMod p) ≠ 0 := hwy1.cast_ne_zero hy1ne
          have hynegne : (y1.num : ZMod p)
              ≠ (wCurve p C).negY (x1.num : ZMod p) (y1.num : ZMod p) := by
            rw [WeierstrassCurve.Affine.negY]
            simp only [wCurve, zero_mul, sub_zero]
            intro h
            have h20 : (2 : ZMod p) * (y1.num : ZMod p) = 0 := by linear_combination h
            rcases mul_eq_zero.mp h20 with h' | h'
            · exact hp2 h'
            · exact hyc0 h'
          rw [show Pcu = C from hP1, hwx1.1]
          obtain ⟨two, htwo, htwoW, htwoC⟩ := feNew_corr hp 2 (by omega)
          obtain ⟨three, hthree, hthreeW, hthreeC⟩ := feNew_corr hp 3 (by omega)
          have htwo0 : (two.num : ZMod p) ≠ 0 := by
            rw [htwoC]
            intro h
            exact hp2 (by exact_mod_cast h)
          obtain ⟨s1, hs1, hs1W, hs1C⟩ := feMul_corr hp hthreeW hwx1
          obtain ⟨s2, hs2, hs2W, hs2C⟩ := feMul_corr hp hs1W hwx1
          obtain ⟨s3, hs3, hs3W, hs3C⟩ := feAdd_corr hp hs2W hC.1
          obtain ⟨s4, hs4, hs4W, hs4C⟩ := feDiv_corr hs3W htwoW htwo0
          obtain ⟨s, hs, hsW, hsC⟩ := feDiv_corr hs4W hwy1 hyc0
          obtain ⟨sq, hsq, hsqW, hsqC⟩ := feMul_corr hp hsW hsW
          obtain ⟨tx, htx, htxW, htxC⟩ := feMul_corr hp htwoW hwx1
          obtain ⟨xr, hxr, hxrW, hxrC⟩ := feSub_corr hp hsqW htxW
          obtain ⟨d, hd, hdW, hdC⟩ := feSub_corr hp hwx1 hxrW
          obtain ⟨m, hm, hmW, hmC⟩ := feMul_corr hp hdW hsW
          obtain ⟨yr, hyr, hyrW, hyrC⟩ := feSub_corr hp hmW hwy1
          have hsL : (s.num : ZMod p) = (wCurve p C).slope (x1.num : ZMod p)
              (x1.num : ZMod p) (y1.num : ZMod p) (y1.num : ZMod p) := by
            rw [hsC, hs4C, hs3C, hs2C, hs1C, hthreeC, htwoC,
              WeierstrassCurve.Affine.slope_of_Y_ne rfl hynegne]
            simp only [wCurve, WeierstrassCurve.Affine.negY, zero_mul, sub_zero,
              mul_zero, zero_add, add_zero, sub_neg_eq_add]
            push_cast
            rw [div_div, div_eq_div_iff (mul_ne_zero hp2 hyc0)
              (by rw [← two_mul]; exact mul_ne_zero hp2 hyc0)]
            ring
          have hxrL : (xr.num : ZMod p) = (wCurve p C).addX (x1.num : ZMod p)
              (x1.num : ZMod p) ((wCurve p C).slope (x1.num : ZMod p) (x1.num : ZMod p)
                (y1.num : ZMod p) (y1.num : ZMod p)) := by
            rw [hxrC, hsqC, htxC, htwoC, hsL]
            simp only [WeierstrassCurve.Affine.addX, wCurve]
            push_cast
            ring
          have hyrL : (yr.num : ZMod p) = (wCurve p C).addY (x1.num : ZMod p)
              (x1.num : ZMod p) (y1.num : ZMod p)
              ((wCurve p C).slope (x1.num : ZMod p) (x1.num : ZMod p)
                (y1.num : ZMod p) (y1.num : ZMod p)) := by
            rw [hyrC, hmC, hdC, hsL, hxrL]
            simp only [WeierstrassCurve.Affine.addY, WeierstrassCurve.Affine.negAddY,
              WeierstrassCurve.Affine.negY, wCurve, zero_mul, sub_zero]
            ring
          have hxy : (x1.num : ZMod p) = (x1.num : ZMod p) →
              (y1.num : ZMod p) ≠ (wCurve p C).negY (x1.num : ZMod p) (y1.num : ZMod p) :=
            fun _ => hynegne
          have hnsR : (wCurve p C).Nonsingular (xr.num : ZMod p) (yr.num : ZMod p) := by
            rw [hxrL, hyrL]
            exact WeierstrassCurve.Affine.nonsingular_add h1 h2 hxy
          refine ⟨⟨some ⟨xr, yr⟩, C⟩, ?_, rfl, Or.inr ⟨xr, yr, hnsR, rfl, hxrW, hyrW, ?_⟩⟩
          · simp only [htwo, hthree, hs1, hs2, hs3, hs4, hs, hsq, htx, hxr, hd, hm, hyr,
              Option.bind_eq_bind, Option.some_bind,
              (pointNew_some_iff hp hC hxrW hyrW).mpr hnsR.1]
            rfl
          · rw [WeierstrassCurve.Affine.Point.add_of_Y_ne hynegne]
            exact affinePoint_some_congr hxrL.symm hyrL.symm _ hnsR
        · rw [if_neg hg3]
          have hxne : x1 ≠ x2 := by
            intro h
            by_cases hy : y1 = y2
            · exact hg3 ⟨h, hy⟩
            · exact hg1 ⟨h, hy⟩
          have hxcne : (x1.num : ZMod p) ≠ (x2.num : ZMod p) :=
            FEwf.cast_ne hwx1 hwx2 hxne
          rw [show Pcu = C from hP1]
          obtain ⟨dy, hdy, hdyW, hdyC⟩ := feSub_corr hp hwy2 hwy1
          obtain ⟨dx, hdx, hdxW, hdxC⟩ := feSub_corr hp hwx2 hwx1
          have hdx0 : (dx.num : ZMod p) ≠ 0 := by
            rw [hdxC]
            exact sub_ne_zero_of_ne (Ne.symm hxcne)
          obtain ⟨s, hs, hsW, hsC⟩ := feDiv_corr hdyW hdxW hdx0
          obtain ⟨sq, hsq, hsqW, hsqC⟩ := feMul_corr hp hsW hsW
          obtain ⟨t, ht, htW, htC⟩ := feSub_corr hp hsqW hwx1
          obtain ⟨xr, hxr, hxrW, hxrC⟩ := feSub_corr hp htW hwx2
          obtain ⟨d, hd, hdW, hdC⟩ := feSub_corr hp hwx1 hxrW
          obtain ⟨m, hm, hmW, hmC⟩ := feMul_corr hp hdW hsW
          obtain ⟨yr, hyr, hyrW, hyrC⟩ := feSub_corr hp hmW hwy1
          have hsL : (s.num : ZMod p) = (wCurve p C).slope (x1.num : ZMod p)
              (x2.num : ZMod p) (y1.num : ZMod p) (y2.num : ZMod p) := by
            rw [hsC, hdyC, hdxC, WeierstrassCurve.Affine.slope_of_X_ne hxcne,
              div_eq_div_iff (sub_ne_zero_of_ne (Ne.symm hxcne))
                (sub_ne_zero_of_ne hxcne)]
            ring
          have hxrL : (xr.num : ZMod p) = (wCurve p C).addX (x1.num : ZMod p)
              (x2.num : ZMod p) ((wCurve p C).slope (x1.num : ZMod p) (x2.num : ZMod p)
                (y1.num : ZMod p) (y2.num : ZMod p)) := by
            rw [hxrC, htC, hsqC, hsL]
            simp only [WeierstrassCurve.Affine.addX, wCurve]
            ring
          have hyrL : (yr.num : ZMod p) = (wCurve p C).addY (x1.num : ZMod p)
              (x2.num : ZMod p) (y1.num : ZMod p)
              ((wCurve p C).slope (x1.num : ZMod p) (x2.num : ZMod p)
                (y1.num : ZMod p) (y2.num : ZMod p)) := by
            rw [hyrC, hmC, hdC, hsL, hxrL]
            simp only [WeierstrassCurve.Affine.addY, WeierstrassCurve.Affine.negAddY,
              WeierstrassCurve.Affine.negY, wCurve, zero_mul, sub_zero]
            ring
          have hxy : (x1.num : ZMod p) = (x2.num : ZMod p) →
              (y1.num : ZMod p) ≠ (wCurve p C).negY (x2.num : ZMod p) (y2.num : ZMod p) :=
            fun h => absurd h hxcne
          have hnsR : (wCurve p C).Nonsingular (xr.num : ZMod p) (yr.num : ZMod p) := by
            rw [hxrL, hyrL]
            exact WeierstrassCurve.Affine.nonsingular_add h1 h2 hxy
          refine ⟨⟨some ⟨xr, yr⟩, C⟩, ?_, rfl, Or.inr ⟨xr, yr, hnsR, rfl, hxrW, hyrW, ?_⟩⟩
          · simp only [hdy, hdx, hs, hsq, ht, hxr, hd, hm, hyr,
              Option.bind_eq_bind, Option.some_bind,
              (pointNew_some_iff hp hC hxrW hyrW).mpr hnsR.1]
            rfl
          · rw [WeierstrassCurve.Affine.Point.add_of_X_ne hxcne]
            exact affinePoint_some_congr hxrL.symm hyrL.symm _ hnsR

theorem represents_inj {p : Nat} {C : CurveOverFiniteField} {A B : Point}
    {X : (wCurve p C).Point} (hA : Represents p C A X) (hB : Represents p C B X) :
    A = B := by
  obtain ⟨Aco, Acu⟩ := A
  obtain ⟨Bco, Bcu⟩ := B
  obtain ⟨hA1, hAd⟩ := hA
  obtain ⟨hB1, hBd⟩ := hB
  rcases hAd with ⟨hAn, rfl⟩ | ⟨ax, ay, ah, hAn, hwax, hway, hXa⟩ <;>
    rcases hBd with ⟨hBn, hXb⟩ | ⟨bx, bz, bh, hBn, hwbx, hwbz, hXb⟩
  · subst hAn
    subst hBn
    rw [show Acu = C from hA1, show Bcu = C from hB1]
  · exact absurd hXb.symm (WeierstrassCurve.Affine.Point.some_ne_zero bh)
  · exact absurd (hXa.symm.trans hXb) (by
      intro h
      exact WeierstrassCurve.Affine.Point.some_ne_zero ah h)
  · subst hAn
    subst hBn
    rw [hXa] at hXb
    injection hXb with hx hy
    have hxe : ax = bx := FEwf.cast_inj hwax hwbx hx
    have hye : ay = bz := FEwf.cast_inj hway hwbz hy
    rw [hxe, hye, show Acu = C from hA1, show Bcu = C from hB1]

theorem wCurve_Δ (p : Nat) (C : CurveOverFiniteField) :
    (wCurve p C).Δ = -64 * (C.a.num : ZMod p) ^ 3 - 432 * (C.b.num : ZMod p) ^ 2 := by
  simp only [wCurve, WeierstrassCurve.Δ, WeierstrassCurve.b₂, WeierstrassCurve.b₄,
    WeierstrassCurve.b₆, WeierstrassCurve.b₈]
  ring

theorem two_ne_zero_of_Δ {p : Nat} {C : CurveOverFiniteField}
    (hD : (wCurve p C).Δ ≠ 0) : (2 : ZMod p) ≠ 0 := by
  intro h2
  apply hD
  rw [wCurve_Δ]
  have hsplit : (-64 : ZMod p) * (C.a.num : ZMod p) ^ 3 - 432 * (C.b.num : ZMod p) ^ 2
      = 2 * ((-32) * (C.a.num : ZMod p) ^ 3 - 216 * (C.b.num : ZMod p) ^ 2) := by ring
  rw [hsplit, h2, zero_mul]

theorem mulLoop_sim {p : Nat} [Fact p.Prime] (hp2 : (2 : ZMod p) ≠ 0)
    {C : CurveOverFiniteField} (hC : CurveWF p C) :
    ∀ (fuel n : Nat) {res cur : Point} {R Cc : (wCurve p C).Point},
      n ≤ fuel → Represents p C res R → Represents p C cur Cc →
      ∃ out, Point.mulLoop fuel res cur n = some out ∧
        Represents p C out (R + n • Cc) := by
  intro fuel
  induction fuel with
  | zero =>
    intro n res cur R Cc hn hres hcur
    interval_cases n
    refine ⟨res, rfl, ?_⟩
    rw [zero_nsmul, add_zero]
    exact hres
  | succ f ih =>
    intro n res cur R Cc hn hres hcur
    match n with
    | 0 =>
      refine ⟨res, rfl, ?_⟩
      rw [zero_nsmul, add_zero]
      exact hres
    | m + 1 =>
      obtain ⟨cur2, hcur2, hcur2R⟩ := pointAdd_sim hp2 hC hcur hcur
      have hbound : (m + 1) / 2 ≤ f := by omega
      by_cases hodd : (m + 1) % 2 = 1
      · obtain ⟨res2, hres2, hres2R⟩ := pointAdd_sim hp2 hC hres hcur
        obtain ⟨out, hout, houtR⟩ := ih ((m + 1) / 2) hbound hres2R hcur2R
        refine ⟨out, ?_, ?_⟩
        · simp only [Point.mulLoop]
          rw [if_pos hodd, hres2, hcur2]
          simp only [Except.toOption, Option.bind_eq_bind, Option.some_bind]
          exact hout
        · have harith : R + Cc + ((m + 1) / 2) • (Cc + Cc) = R + (m + 1) • Cc := by
            obtain ⟨k, hk⟩ : ∃ k, (m + 1) / 2 = k := ⟨_, rfl⟩
            have hm2 : m + 1 = 1 + k * 2 := by omega
            rw [hk, show Cc + Cc = 2 • Cc from (two_nsmul Cc).symm, smul_smul, hm2,
              add_nsmul, one_nsmul, ← add_assoc]
          rw [← harith]
          exact houtR
      · obtain ⟨out, hout, houtR⟩ := ih ((m + 1) / 2) hbound hres hcur2R
        refine ⟨out, ?_, ?_⟩
        · simp only [Point.mulLoop]
          rw [if_neg hodd, hcur2]
          simp only [Except.toOption, Option.bind_eq_bind, Option.some_bind]
          exact hout
        · have harith : R + ((m + 1) / 2) • (Cc + Cc) = R + (m + 1) • Cc := by
            obtain ⟨k, hk⟩ : ∃ k, (m + 1) / 2 = k := ⟨_, rfl⟩
            have hm2 : m + 1 = k * 2 := by omega
            rw [hk, show Cc + Cc = 2 • Cc from (two_nsmul Cc).symm, smul_smul, hm2]
          rw [← harith]
          exact houtR

theorem iterAdd_sim {p : Nat} [Fact p.Prime] (hp2 : (2 : ZMod p) ≠ 0)
    {C : CurveOverFiniteField} (hC : CurveWF p C) {P : Point}
    {P' : (wCurve p C).Point} (hP : Represents p C P P') :
    ∀ k : Nat, ∃ out, Point.iterAdd P k = some out ∧ Represents p C out (k • P') := by
  intro k
  induction k with
  | zero =>
    refine ⟨⟨none, P.curve⟩, rfl, hP.1, Or.inl ⟨rfl, ?_⟩⟩
    rw [zero_nsmul]
  | succ m ihm =>
    obtain ⟨out, hout, houtR⟩ := ihm
    obtain ⟨out2, hout2, hout2R⟩ := pointAdd_sim hp2 hC houtR hP
    refine ⟨out2, ?_, ?_⟩
    · rw [Point.iterAdd, hout]
      simp only [Option.bind_eq_bind, Option.some_bind, hout2, Except.toOption]
    · rw [succ_nsmul]
      exact hout2R

/-- Well-formedness of an optional coordinate over the prime `p`. -/
def coordWF (p : Nat) : Option Coordinate → Prop
  | none => True
  | some c => FEwf p c.x ∧ FEwf p c.y

instance (p : Nat) (co : Option Coordinate) : Decidable (coordWF p co) :=
  match co with
  | none => .isTrue trivial
  | some _ => inferInstanceAs (Decidable (_ ∧ _))

/-- A valid point of the embedding: its curve is `C`, its coordinates are
reduced residues modulo `p`, and it passes the source's own `Point::new`
curve-equation validation. -/
def PointWF (p : Nat) (C : CurveOverFiniteField) (P : Point) : Prop :=
  P.curve = C ∧ coordWF p P.coordinate ∧ Point.new P.coordinate P.curve = some P

instance (p : Nat) (C : CurveOverFiniteField) (P : Point) : Decidable (PointWF p C P) :=
  inferInstanceAs (Decidable (_ ∧ _ ∧ _))

theorem pointWF_represents {p : Nat} [Fact p.Prime] {C : CurveOverFiniteField}
    (hC : CurveWF p C) (hD : (wCurve p C).Δ ≠ 0) {P : Point} (hP : PointWF p C P) :
    ∃ P', Represents p C P P' := by
  have hp : 0 < p := (Fact.out : p.Prime).pos
  obtain ⟨Pco, Pcu⟩ := P
  obtain ⟨h1, h2, h3⟩ := hP
  cases Pco with
  | none => exact ⟨0, h1, Or.inl ⟨rfl, rfl⟩⟩
  | some co =>
    obtain ⟨x, y⟩ := co
    obtain ⟨hwx, hwy⟩ := h2
    rw [show Pcu = C from h1] at h3
    have hEq : (wCurve p C).Equation (x.num : ZMod p) (y.num : ZMod p) :=
      (pointNew_some_iff hp hC hwx hwy).mp h3
    have hns := WeierstrassCurve.Affine.nonsingular_of_Δ_ne_zero (wCurve p C) hEq hD
    exact ⟨.some hns, h1, Or.inr ⟨x, y, hns, rfl, hwx, hwy, rfl⟩⟩

/-- Claim C6. On any elliptic curve over a prime field (prime modulus `p`,
well-formed curve and point, nonzero discriminant), the source's
least-significant-bit-first double-and-add scalar multiplication agrees with
the `k`-fold iterated group addition of the point, and the iterated addition
never panics; `k = 0` yields the identity immediately. For secp256k1 points
the scalar is first reduced modulo `N` (definitionally), so in particular
`G·N` is the point at infinity. -/
theorem c6_scalar_mul_is_iterated_add :
    (∀ (p : Nat) (C : CurveOverFiniteField) (P : Point) (k : Nat),
        p.Prime → CurveWF p C → PointWF p C P → (wCurve p C).Δ ≠ 0 →
        Point.mul P (k : Int) = Point.iterAdd P k ∧ (Point.iterAdd P k).isSome) ∧
    (∀ (P : Point) (k : Int), Secp256k1.mul P k = Point.mul P (k.fmod Secp256k1.N)) ∧
    Secp256k1.mul Secp256k1.G Secp256k1.N = some ⟨none, Secp256k1.curve⟩ := by
  refine ⟨?_, fun P k => rfl, ?_⟩
  · intro p C P k hp hC hP hD
    haveI : Fact p.Prime := ⟨hp⟩
    have hp2 : (2 : ZMod p) ≠ 0 := two_ne_zero_of_Δ hD
    obtain ⟨P', hrep⟩ := pointWF_represents hC hD hP
    obtain ⟨out2, hout2, hR2⟩ := iterAdd_sim hp2 hC hrep k
    by_cases hk : k = 0
    · subst hk
      constructor
      · simp [Point.mul, Point.iterAdd]
      · simp [Point.iterAdd]
    · have hid : Represents p C ⟨none, P.curve⟩ (0 : (wCurve p C).Point) :=
        ⟨hP.1, Or.inl ⟨rfl, rfl⟩⟩
      obtain ⟨out1, hout1, hR1⟩ := mulLoop_sim hp2 hC k k (Nat.le_refl k) hid hrep
      have hR1' : Represents p C out1 (k • P') := by
        rw [zero_add] at hR1
        exact hR1
      have houteq : out1 = out2 := represents_inj hR1' hR2
      constructor
      · rw [Point.mul, if_neg (by exact_mod_cast hk),
          show ((k : Nat) : Int).toNat = k from Int.toNat_natCast k, hout1, hout2,
          houteq]
      · rw [hout2]
        rfl
  · set_option maxRecDepth 10000 in decide

/-- Claim C6, witness: the valid point `(192, 105)` on `y² = x³ + 7` over
`GF(223)` with scalar `k = 6`. -/
theorem c6_scalar_mul_is_iterated_add_witness :
    Point.mul ⟨some ⟨⟨192, 223⟩, ⟨105, 223⟩⟩, curve223⟩ ((6 : Nat) : Int)
        = Point.iterAdd ⟨some ⟨⟨192, 223⟩, ⟨105, 223⟩⟩, curve223⟩ 6
      ∧ (Point.iterAdd ⟨some ⟨⟨192, 223⟩, ⟨105, 223⟩⟩, curve223⟩ 6).isSome :=
  c6_scalar_mul_is_iterated_add.1 223 curve223
    ⟨some ⟨⟨192, 223⟩, ⟨105, 223⟩⟩, curve223⟩ 6
    (by decide) (by decide) (by decide) (by decide)
